import Mathlib

set_option maxRecDepth 8192

/-!
Shallow embedding of the Go package `types/model` (file `types/model/name.go`)
of the ollama repository.

Go strings are modelled as `List Char`.  Every character class used by the
source (`[A-Za-z0-9._:-]`, hex digits, the separators `@ : / -`) is ASCII, so
byte-wise processing in Go and character-wise processing here coincide on all
observable behaviour modelled below: a non-ASCII character fails every
character-class check in both views, and for pure-ASCII strings byte length
equals character length.

Fallible behaviour is made explicit: `ParseDigest` can make `hex.Decode`
write past the end of its 32-byte destination array, which panics in Go;
this is modelled by an `Option` result where `none` stands for the panic.
-/

/-- Embeds the Go constant `MissingPart = "!MISSING!"`. -/
def MissingPart : List Char := ['!', 'M', 'I', 'S', 'S', 'I', 'N', 'G', '!']

/-- Embeds `cmp.Or` specialised to strings: the first argument if it is
non-empty, otherwise the second. -/
def cmpOr (a b : List Char) : List Char := if a = [] then b else a

/-- Embeds `cutLast(s, sep)` (for the single-character separators used by the
source): split `s` at the last occurrence of `sep` (`strings.LastIndex`),
returning `(before, after, ok)`; if `sep` does not occur, `(s, "", false)`. -/
def cutLast : List Char → Char → List Char × List Char × Bool
  | [], _ => ([], [], false)
  | c :: s, sep =>
    match cutLast s sep with
    | (b, a, true) => (c :: b, a, true)
    | (_, _, false) => if c = sep then ([], s, true) else (c :: s, [], false)

/-- Embeds `cutPromised`: like `cutLast`, but when the separator is found an
empty side is replaced by `MissingPart`. -/
def cutPromised (s : List Char) (sep : Char) : List Char × List Char × Bool :=
  match cutLast s sep with
  | (b, a, false) => (b, a, false)
  | (b, a, true) => (cmpOr b MissingPart, cmpOr a MissingPart, true)

/-- Embeds the Go enum `partKind` (`kindHost .. kindDigest`). -/
inductive partKind where
  | host
  | namespace_
  | model
  | tag
  | digest
deriving DecidableEq, Repr

/-- Embeds the struct `Name` with its five string fields (the zero-sized
`structs.Incomparable` marker field carries no data and is omitted). -/
structure Name where
  host : List Char := []
  namespace_ : List Char := []
  model : List Char := []
  tag : List Char := []
  rawDigest : List Char := []
deriving DecidableEq, Repr

/-- Embeds `isAlphanumeric`. -/
def isAlphanumeric (c : Char) : Bool :=
  ('A' ≤ c ∧ c ≤ 'Z') ∨ ('a' ≤ c ∧ c ≤ 'z') ∨ ('0' ≤ c ∧ c ≤ '9')

/-- Embeds `isValidLen`. -/
def isValidLen (kind : partKind) (s : List Char) : Bool :=
  match kind with
  | .host => decide (1 ≤ s.length ∧ s.length ≤ 350)
  | .tag => decide (1 ≤ s.length ∧ s.length ≤ 80)
  | _ => decide (2 ≤ s.length ∧ s.length ≤ 80)

/-- Embeds the `switch s[i]` body of `isValidPart` for the characters at
index `i > 0`: `_` and `-` always pass, `.` passes except in a namespace,
`:` passes only in a host, anything else must be alphanumeric. -/
def isRestCharValid (kind : partKind) (c : Char) : Bool :=
  if c = '_' ∨ c = '-' then true
  else if c = '.' then decide (kind ≠ partKind.namespace_)
  else if c = ':' then decide (kind = partKind.host)
  else isAlphanumeric c

/-- Embeds `isValidPart`: the length check, then the character loop.  The Go
loop treats index 0 specially (must be alphanumeric) and applies the switch
to all later indices; this is the head/tail decomposition of that loop. -/
def isValidPart (kind : partKind) (s : List Char) : Bool :=
  isValidLen kind s &&
    match s with
    | [] => true
    | c :: rest => isAlphanumeric c && rest.all (isRestCharValid kind)

/-- Embeds `IsValidShort`. -/
def IsValidShort (namespace_ model : List Char) : Bool :=
  isValidPart .namespace_ namespace_ && isValidPart .model model

/-- Embeds `ParseNameNoDefaults`: right-to-left cuts at `@`, `:`, `/`, `/`.
The digest cut is plain `cutLast` with only the after-side promoted to
`MissingPart` when promised-but-empty; the remaining cuts use
`cutPromised`. -/
def ParseNameNoDefaults (s : List Char) : Name :=
  let p1 := cutLast s '@'
  let rawDigest := if p1.2.2 = true ∧ p1.2.1 = [] then MissingPart else p1.2.1
  let p2 := cutPromised p1.1 ':'
  let p3 := cutPromised p2.1 '/'
  if p3.2.2 = false then
    { model := p3.1, tag := p2.2.1, rawDigest := rawDigest }
  else
    let p4 := cutPromised p3.1 '/'
    if p4.2.2 = false then
      { namespace_ := p4.1, model := p3.2.1, tag := p2.2.1, rawDigest := rawDigest }
    else
      { host := p4.1, namespace_ := p4.2.1, model := p3.2.1, tag := p2.2.1,
        rawDigest := rawDigest }

/-- Embeds `Name.IsValid`: a model or digest part must be present, and every
non-empty field must pass `isValidPart` for its kind (the Go loop over the
five-element array is unrolled). -/
def Name.IsValid (n : Name) : Bool :=
  if n.model.isEmpty && n.rawDigest.isEmpty then false
  else
    (n.host.isEmpty || isValidPart .host n.host) &&
    (n.namespace_.isEmpty || isValidPart .namespace_ n.namespace_) &&
    (n.model.isEmpty || isValidPart .model n.model) &&
    (n.tag.isEmpty || isValidPart .tag n.tag) &&
    (n.rawDigest.isEmpty || isValidPart .digest n.rawDigest)

/-- Embeds `Name.String`: the empty string for invalid names, otherwise
`[host/][namespace/]model[:tag][@digest]` built exactly as the Go
`strings.Builder` sequence does. -/
def Name.String (n : Name) : List Char :=
  if n.IsValid = true then
    (if n.host.isEmpty then [] else n.host ++ ['/']) ++
    ((if n.namespace_.isEmpty then [] else n.namespace_ ++ ['/']) ++
      (n.model ++
        ((if n.tag.isEmpty then [] else ':' :: n.tag) ++
          (if n.rawDigest.isEmpty then [] else '@' :: n.rawDigest))))
  else []

/-- Embeds `DefaultName`. -/
def DefaultName : Name :=
  { host := ['r','e','g','i','s','t','r','y','.','o','l','l','a','m','a','.','a','i'],
    namespace_ := ['l','i','b','r','a','r','y'],
    tag := ['l','a','t','e','s','t'] }

/-- Embeds `Name.Merge`: fill empty host, namespace and tag from `o`; model
and digest are never defaulted. -/
def Name.Merge (n o : Name) : Name :=
  { n with
    host := cmpOr n.host o.host,
    namespace_ := cmpOr n.namespace_ o.namespace_,
    tag := cmpOr n.tag o.tag }

/-- Embeds `ParseName`. -/
def ParseName (s : List Char) : Name :=
  (ParseNameNoDefaults s).Merge DefaultName

/-- Embeds `writeLower` applied to a whole field: the sequence of bytes the
Go loop writes into the hash, with ASCII `A`–`Z` folded to `a`–`z`
(`s[i] - 'A' + 'a'`, i.e. code point + 32). -/
def writeLower (s : List Char) : List Char :=
  s.map fun c => if 'A' ≤ c ∧ c ≤ 'Z' then Char.ofNat (c.toNat + 32) else c

/-- The byte stream `Name.MapHash` feeds to `maphash`: the five fields
lower-cased and concatenated in fixed order, with no separator. -/
def Name.hashBytes (n : Name) : List Char :=
  writeLower n.host ++ writeLower n.namespace_ ++ writeLower n.model ++
    writeLower n.tag ++ writeLower n.rawDigest

/-- Embeds `Name.MapHash`.  `maphash.Hash` with the fixed process-wide seed
is modelled by an arbitrary function `H` of the byte stream written into
the hash; `Sum64` depends only on the seed and on that stream. -/
def Name.MapHash (H : List Char → Nat) (n : Name) : Nat :=
  H n.hashBytes

/-- Embeds `Name.Equal`: equality of the two map hashes. -/
def Name.Equal (H : List Char → Nat) (n o : Name) : Bool :=
  n.MapHash H == o.MapHash H

/-- Embeds the Go type `DigestType` (an `int`). -/
abbrev DigestType := Int

/-- Embeds the constant `DigestTypeSHA256 = 1`. -/
def DigestTypeSHA256 : DigestType := 1

/-- Embeds `DigestType.String`. -/
def DigestType.String (t : DigestType) : List Char :=
  if t = DigestTypeSHA256 then ['s','h','a','2','5','6']
  else ['u','n','k','n','o','w','n']

/-- A fixed-size 32-byte array, embedding Go's `[32]byte`. -/
abbrev Hash32 := { l : List Nat // l.length = 32 }

/-- The zero value of `[32]byte`. -/
def zeroHash : Hash32 := ⟨List.replicate 32 0, by decide⟩

/-- Embeds the struct `Digest` (Go fields `Type` and `Hash`; `Type` is a
Lean keyword, hence the field names `typ` and `hash`). -/
structure Digest where
  typ : DigestType
  hash : Hash32
deriving DecidableEq, Repr

/-- The zero value `Digest{}`. -/
def zeroDigest : Digest := { typ := 0, hash := zeroHash }

/-- Embeds `Digest.IsValid`: recognized type and non-zero hash. -/
def Digest.IsValid (d : Digest) : Bool :=
  if d.typ ≠ DigestTypeSHA256 then false
  else decide (d.hash ≠ zeroHash)

/-- Embeds Go's `fromHexChar` (used by `encoding/hex`): the value of a hex
digit, expressed on code points (`'0'` = 48, `'9'` = 57, `'a'` = 97,
`'f'` = 102, `'A'` = 65, `'F'` = 70). -/
def fromHexChar (c : Char) : Option Nat :=
  if 48 ≤ c.toNat ∧ c.toNat ≤ 57 then some (c.toNat - 48)
  else if 97 ≤ c.toNat ∧ c.toNat ≤ 102 then some (c.toNat - 97 + 10)
  else if 65 ≤ c.toNat ∧ c.toNat ≤ 70 then some (c.toNat - 65 + 10)
  else none

/-- Embeds the pair loop of `encoding/hex.Decode` writing into a destination
of length `dstLen`, with `i` bytes already written.  Go checks that both
characters of the pair are hex digits and then stores `a<<4 | b` at `dst[i]`
without bounds-checking `dst`; `i ≥ dstLen` therefore panics, modelled as
`none`.  A `some (bytes, err)` result carries the bytes written by this call
and whether `Decode` returned a non-nil error (invalid byte or odd
length). -/
def hexDecodeCore (dstLen i : Nat) : List Char → Option (List Nat × Bool)
  | [] => some ([], false)
  | [_] => some ([], true)
  | p :: q :: rest =>
    match fromHexChar p, fromHexChar q with
    | some a, some b =>
      if i < dstLen then
        match hexDecodeCore dstLen (i + 1) rest with
        | none => none
        | some (bs, err) => some ((16 * a + b) :: bs, err)
      else none
    | _, _ => some ([], true)

/-- Embeds `ParseDigest`: cut at the last `:`, else the last `-`; the type
must be `sha256`; `hex.Decode` into the 32-byte hash must succeed having
written exactly 32 bytes, otherwise the zero digest.  `none` propagates the
`hex.Decode` panic. -/
def ParseDigest (s : List Char) : Option Digest :=
  let c1 := cutLast s ':'
  let c2 := if c1.2.2 = true then c1 else cutLast s '-'
  if c2.2.2 = false then some zeroDigest
  else if c2.1 ≠ ['s','h','a','2','5','6'] then some zeroDigest
  else
    match hexDecodeCore 32 0 c2.2.1 with
    | none => none
    | some (bs, err) =>
      if h : err = true ∨ ¬bs.length = 32 then some zeroDigest
      else some { typ := DigestTypeSHA256, hash := ⟨bs, of_not_not (not_or.mp h).2⟩ }

/-- Embeds `Name.Digest`. -/
def Name.Digest (n : Name) : Option Digest :=
  ParseDigest n.rawDigest

/-- Embeds `hex.EncodeToString` on the hash bytes: each byte `b` becomes the
two characters `hextable[b>>4]`, `hextable[b&0x0f]` (bytes are below 256, so
`b>>4` is `b / 16 % 16` and `b&0x0f` is `b % 16`). -/
def hexDigit (n : Nat) : Char :=
  if n < 10 then Char.ofNat (48 + n) else Char.ofNat (97 + (n - 10))

/-- Hex encoding of a byte list (see `hexDigit`). -/
def hexEncode (bs : List Nat) : List Char :=
  (bs.map fun b => [hexDigit (b / 16 % 16), hexDigit (b % 16)]).flatten

/-- Embeds `Digest.String`: `type-hash` with the hash hex encoded. -/
def Digest.String (d : Digest) : List Char :=
  DigestType.String d.typ ++ '-' :: hexEncode d.hash.1

/-- The decoded byte sequence of a hex string, two characters per byte
(specification-side companion of `hexDecodeCore`, used to state its
behaviour on well-formed input). -/
def hexPairs : List Char → List Nat
  | [] => []
  | [_] => []
  | p :: q :: rest =>
    (16 * (fromHexChar p).getD 0 + (fromHexChar q).getD 0) :: hexPairs rest

/-- A 32-byte array whose first byte is 1 and whose other bytes are 0: a
Digest hash value representable in Go (`[32]byte{1}`), used to exhibit the
behaviour of `Digest.String` on invalid digests with a non-zero hash. -/
def oneHash : Hash32 := ⟨1 :: List.replicate 31 0, by decide⟩

example : ParseNameNoDefaults (['h','o','s','t','/','n','n','/','m','m',':','t']) =
    { host := ['h','o','s','t'], namespace_ := ['n','n'], model := ['m','m'],
      tag := ['t'] } := by decide

example : (ParseNameNoDefaults ['m','o','d','e','l']).IsValid = true := by decide

example : (ParseNameNoDefaults ['@']).IsValid = false := by decide

/-- If `cutLast` reports the separator found, the input is the concatenation
`before ++ sep :: after`. -/
theorem cutLast_ok (s : List Char) (sep : Char) (b a : List Char)
    (h : cutLast s sep = (b, a, true)) : s = b ++ sep :: a := by
  induction s generalizing b a with
  | nil => simp [cutLast] at h
  | cons c rest ih =>
    rcases hr : cutLast rest sep with ⟨b', a', ok'⟩
    cases ok' with
    | true =>
      have hstep : cutLast (c :: rest) sep = (c :: b', a', true) := by
        simp [cutLast, hr]
      rw [hstep] at h
      injection h with h1 h2
      injection h2 with h2 h3
      subst h1; subst h2
      simp [ih b' a' hr]
    | false =>
      by_cases hc : c = sep
      · have hstep : cutLast (c :: rest) sep = ([], rest, true) := by
          simp [cutLast, hr, hc]
        rw [hstep] at h
        injection h with h1 h2
        injection h2 with h2 h3
        subst h1; subst h2; subst hc
        rfl
      · have hstep : cutLast (c :: rest) sep = (c :: rest, [], false) := by
          simp [cutLast, hr, hc]
        rw [hstep] at h
        injection h with h1 h2
        injection h2 with h2 h3
        exact Bool.noConfusion h3

/-- If `cutLast` reports the separator not found, the input is returned
unchanged, the after-part is empty, and the separator does not occur. -/
theorem cutLast_not_ok (s : List Char) (sep : Char) (b a : List Char)
    (h : cutLast s sep = (b, a, false)) : b = s ∧ a = [] ∧ sep ∉ s := by
  induction s generalizing b a with
  | nil =>
    have hstep : cutLast ([] : List Char) sep = ([], [], false) := rfl
    rw [hstep] at h
    injection h with h1 h2
    injection h2 with h2 h3
    subst h1; subst h2
    simp
  | cons c rest ih =>
    rcases hr : cutLast rest sep with ⟨b', a', ok'⟩
    cases ok' with
    | true =>
      have hstep : cutLast (c :: rest) sep = (c :: b', a', true) := by
        simp [cutLast, hr]
      rw [hstep] at h
      injection h with h1 h2
      injection h2 with h2 h3
      exact Bool.noConfusion h3
    | false =>
      by_cases hc : c = sep
      · have hstep : cutLast (c :: rest) sep = ([], rest, true) := by
          simp [cutLast, hr, hc]
        rw [hstep] at h
        injection h with h1 h2
        injection h2 with h2 h3
        exact Bool.noConfusion h3
      · have hstep : cutLast (c :: rest) sep = (c :: rest, [], false) := by
          simp [cutLast, hr, hc]
        rw [hstep] at h
        injection h with h1 h2
        injection h2 with h2 h3
        obtain ⟨-, -, hmem⟩ := ih b' a' hr
        refine ⟨h1.symm, h2.symm, ?_⟩
        simp only [List.mem_cons, not_or]
        exact ⟨fun hh => hc hh.symm, hmem⟩

/-- After a successful `cutLast`, the separator does not occur in the
after-part (the cut is at the last occurrence). -/
theorem cutLast_ok_not_mem (s : List Char) (sep : Char) (b a : List Char)
    (h : cutLast s sep = (b, a, true)) : sep ∉ a := by
  induction s generalizing b a with
  | nil => simp [cutLast] at h
  | cons c rest ih =>
    rcases hr : cutLast rest sep with ⟨b', a', ok'⟩
    cases ok' with
    | true =>
      have hstep : cutLast (c :: rest) sep = (c :: b', a', true) := by
        simp [cutLast, hr]
      rw [hstep] at h
      injection h with h1 h2
      injection h2 with h2 h3
      subst h2
      exact ih b' a' hr
    | false =>
      by_cases hc : c = sep
      · have hstep : cutLast (c :: rest) sep = ([], rest, true) := by
          simp [cutLast, hr, hc]
        rw [hstep] at h
        injection h with h1 h2
        injection h2 with h2 h3
        subst h2
        exact (cutLast_not_ok rest sep b' a' hr).2.2
      · have hstep : cutLast (c :: rest) sep = (c :: rest, [], false) := by
          simp [cutLast, hr, hc]
        rw [hstep] at h
        injection h with h1 h2
        injection h2 with h2 h3
        exact Bool.noConfusion h3

/-- If the separator does not occur, `cutLast` reports it not found. -/
theorem cutLast_of_not_mem (s : List Char) (sep : Char) (h : sep ∉ s) :
    cutLast s sep = (s, [], false) := by
  rcases hr : cutLast s sep with ⟨b, a, ok⟩
  cases ok with
  | true => exact absurd (cutLast_ok s sep b a hr ▸ h) (by simp)
  | false =>
    obtain ⟨h1, h2, -⟩ := cutLast_not_ok s sep b a hr
    rw [h1, h2]

/-- `cutLast` on `l1 ++ sep :: l2` with `sep` not in `l2` cuts exactly at
that separator. -/
theorem cutLast_append (l1 l2 : List Char) (sep : Char) (h : sep ∉ l2) :
    cutLast (l1 ++ sep :: l2) sep = (l1, l2, true) := by
  induction l1 with
  | nil =>
    rw [List.nil_append, cutLast, cutLast_of_not_mem l2 sep h]
    simp
  | cons c rest ih =>
    rw [List.cons_append, cutLast, ih]

/-- Unsuccessful `cutPromised` returns the input unchanged. -/
theorem cutPromised_not_ok (s : List Char) (sep : Char) (b a : List Char)
    (h : cutPromised s sep = (b, a, false)) : b = s ∧ a = [] ∧ sep ∉ s := by
  rcases hr : cutLast s sep with ⟨b', a', ok'⟩
  cases ok' with
  | true =>
    have hstep : cutPromised s sep = (cmpOr b' MissingPart, cmpOr a' MissingPart, true) := by
      simp [cutPromised, hr]
    rw [hstep] at h
    injection h with h1 h2
    injection h2 with h2 h3
    exact Bool.noConfusion h3
  | false =>
    have hstep : cutPromised s sep = (b', a', false) := by
      simp [cutPromised, hr]
    rw [hstep] at h
    injection h with h1 h2
    injection h2 with h2 h3
    subst h1; subst h2
    exact cutLast_not_ok s sep b' a' hr

/-- Successful `cutPromised` decomposes the input at the last separator and
`MissingPart`-promotes the empty sides. -/
theorem cutPromised_ok (s : List Char) (sep : Char) (b a : List Char)
    (h : cutPromised s sep = (b, a, true)) :
    ∃ b0 a0, s = b0 ++ sep :: a0 ∧ sep ∉ a0 ∧
      b = cmpOr b0 MissingPart ∧ a = cmpOr a0 MissingPart := by
  rcases hr : cutLast s sep with ⟨b', a', ok'⟩
  cases ok' with
  | true =>
    have hstep : cutPromised s sep = (cmpOr b' MissingPart, cmpOr a' MissingPart, true) := by
      simp [cutPromised, hr]
    rw [hstep] at h
    injection h with h1 h2
    injection h2 with h2 h3
    exact ⟨b', a', cutLast_ok s sep b' a' hr, cutLast_ok_not_mem s sep b' a' hr,
      h1.symm, h2.symm⟩
  | false =>
    have hstep : cutPromised s sep = (b', a', false) := by
      simp [cutPromised, hr]
    rw [hstep] at h
    injection h with h1 h2
    injection h2 with h2 h3
    exact Bool.noConfusion h3

/-- The `MissingPart` sentinel is not the empty string. -/
theorem MissingPart_ne_nil : MissingPart ≠ [] := by decide

/-- The `MissingPart` sentinel is not empty (`isEmpty` view). -/
theorem MissingPart_isEmpty : MissingPart.isEmpty = false := by decide

/-- `cmpOr` with `MissingPart` as fallback never returns the empty string. -/
theorem cmpOr_MissingPart_ne_nil (b : List Char) : cmpOr b MissingPart ≠ [] := by
  unfold cmpOr
  split
  · exact MissingPart_ne_nil
  · assumption

/-- `cmpOr` on a non-empty first argument returns it. -/
theorem cmpOr_of_ne_nil (b x : List Char) (h : b ≠ []) : cmpOr b x = b := by
  unfold cmpOr
  simp [h]

/-- The sentinel `MissingPart` fails `isValidPart` for every part kind. -/
theorem isValidPart_MissingPart (k : partKind) : isValidPart k MissingPart = false := by
  cases k <;> decide

/-- Unpacks `Name.IsValid`: every non-empty field passes its part check, and
a model or digest part is present. -/
theorem isValid_requires (n : Name) (h : n.IsValid = true) :
    (n.host = [] ∨ isValidPart .host n.host = true) ∧
    (n.namespace_ = [] ∨ isValidPart .namespace_ n.namespace_ = true) ∧
    (n.model = [] ∨ isValidPart .model n.model = true) ∧
    (n.tag = [] ∨ isValidPart .tag n.tag = true) ∧
    (n.rawDigest = [] ∨ isValidPart .digest n.rawDigest = true) ∧
    ¬(n.model = [] ∧ n.rawDigest = []) := by
  simp only [Name.IsValid] at h
  split at h
  · exact Bool.noConfusion h
  · rename_i hC
    simp only [Bool.and_eq_true, List.isEmpty_iff] at hC
    simp only [Bool.and_eq_true, Bool.or_eq_true, List.isEmpty_iff] at h
    obtain ⟨⟨⟨⟨f1, f2⟩, f3⟩, f4⟩, f5⟩ := h
    exact ⟨f1, f2, f3, f4, f5, hC⟩

/-- A name having any field equal to the `MissingPart` sentinel is
invalid. -/
theorem missing_field_invalid (n : Name)
    (hf : n.host = MissingPart ∨ n.namespace_ = MissingPart ∨ n.model = MissingPart ∨
      n.tag = MissingPart ∨ n.rawDigest = MissingPart) : n.IsValid = false := by
  cases hv : n.IsValid with
  | false => rfl
  | true =>
    exfalso
    obtain ⟨f1, f2, f3, f4, f5, -⟩ := isValid_requires n hv
    rcases hf with hf | hf | hf | hf | hf
    · rw [hf] at f1
      rcases f1 with e | e
      · exact MissingPart_ne_nil e
      · rw [isValidPart_MissingPart] at e; exact Bool.noConfusion e
    · rw [hf] at f2
      rcases f2 with e | e
      · exact MissingPart_ne_nil e
      · rw [isValidPart_MissingPart] at e; exact Bool.noConfusion e
    · rw [hf] at f3
      rcases f3 with e | e
      · exact MissingPart_ne_nil e
      · rw [isValidPart_MissingPart] at e; exact Bool.noConfusion e
    · rw [hf] at f4
      rcases f4 with e | e
      · exact MissingPart_ne_nil e
      · rw [isValidPart_MissingPart] at e; exact Bool.noConfusion e
    · rw [hf] at f5
      rcases f5 with e | e
      · exact MissingPart_ne_nil e
      · rw [isValidPart_MissingPart] at e; exact Bool.noConfusion e

/-- Formatting core for the tail of the parser: the name assembled from the
tag/model/namespace cuts of `s1`, with digest field `D`, formats back to
`s1` followed by the digest suffix, whenever that name is valid. -/
theorem parse_tail_String (s1 s2 s3 s4 tg md ns D : List Char) (pr2 pr3 pr4 : Bool)
    (h2 : cutPromised s1 ':' = (s2, tg, pr2))
    (h3 : cutPromised s2 '/' = (s3, md, pr3))
    (h4 : cutPromised s3 '/' = (s4, ns, pr4))
    (n : Name)
    (hn : n = if pr3 = false then { model := s3, tag := tg, rawDigest := D }
      else if pr4 = false then
        { namespace_ := s4, model := md, tag := tg, rawDigest := D }
      else { host := s4, namespace_ := ns, model := md, tag := tg, rawDigest := D })
    (h : n.IsValid = true) :
    n.String = s1 ++ (if D.isEmpty = true then [] else '@' :: D) := by
  cases pr3 with
  | false =>
    obtain ⟨hs3, -, -⟩ := cutPromised_not_ok s2 '/' s3 md h3
    simp at hn
    rw [hs3] at hn
    subst hn
    cases pr2 with
    | false =>
      obtain ⟨hs2, htg, -⟩ := cutPromised_not_ok s1 ':' s2 tg h2
      subst htg
      rw [hs2] at h ⊢
      simp [Name.String, h]
    | true =>
      obtain ⟨b2, a2, hs1eq, -, hb2, ha2⟩ := cutPromised_ok s1 ':' s2 tg h2
      cases a2 with
      | nil =>
        simp [cmpOr] at ha2
        exact Bool.noConfusion
          ((missing_field_invalid _ (Or.inr (Or.inr (Or.inr (Or.inl ha2))))).symm.trans h)
      | cons tc ts =>
        simp [cmpOr] at ha2
        subst ha2
        cases b2 with
        | nil =>
          simp [cmpOr] at hb2
          exact Bool.noConfusion
            ((missing_field_invalid _ (Or.inr (Or.inr (Or.inl hb2)))).symm.trans h)
        | cons bc bs =>
          simp [cmpOr] at hb2
          subst hb2
          simp [Name.String, h, hs1eq, List.append_assoc]
  | true =>
    obtain ⟨b3, a3, hs2eq, -, hb3, ha3⟩ := cutPromised_ok s2 '/' s3 md h3
    cases pr4 with
    | false =>
      obtain ⟨hs4, -, -⟩ := cutPromised_not_ok s3 '/' s4 ns h4
      simp at hn
      rw [hs4] at hn
      subst hn
      cases a3 with
      | nil =>
        simp [cmpOr] at ha3
        exact Bool.noConfusion
          ((missing_field_invalid _ (Or.inr (Or.inr (Or.inl ha3)))).symm.trans h)
      | cons mc ms =>
        simp [cmpOr] at ha3
        subst ha3
        cases b3 with
        | nil =>
          simp [cmpOr] at hb3
          exact Bool.noConfusion
            ((missing_field_invalid _ (Or.inr (Or.inl hb3))).symm.trans h)
        | cons b3c b3s =>
          simp [cmpOr] at hb3
          subst hb3
          cases pr2 with
          | false =>
            obtain ⟨hs2, htg, -⟩ := cutPromised_not_ok s1 ':' s2 tg h2
            subst hs2
            subst htg
            simp [Name.String, h, hs2eq, List.append_assoc]
          | true =>
            obtain ⟨b2, a2, hs1eq, -, hb2, ha2⟩ := cutPromised_ok s1 ':' s2 tg h2
            cases a2 with
            | nil =>
              simp [cmpOr] at ha2
              exact Bool.noConfusion
                ((missing_field_invalid _ (Or.inr (Or.inr (Or.inr (Or.inl ha2))))).symm.trans h)
            | cons tc ts =>
              simp [cmpOr] at ha2
              subst ha2
              cases b2 with
              | nil =>
                simp [cmpOr] at hb2
                rw [hb2] at hs2eq
                have hm : '/' ∈ MissingPart := by
                  rw [hs2eq]
                  simp
                exact absurd hm (by decide)
              | cons bc bs =>
                simp [cmpOr] at hb2
                subst hb2
                simp [Name.String, h, hs1eq, hs2eq, List.append_assoc]
    | true =>
      obtain ⟨b4, a4, hs3eq, -, hb4, ha4⟩ := cutPromised_ok s3 '/' s4 ns h4
      simp at hn
      subst hn
      cases a4 with
      | nil =>
        simp [cmpOr] at ha4
        exact Bool.noConfusion
          ((missing_field_invalid _ (Or.inr (Or.inl ha4))).symm.trans h)
      | cons nc nss =>
        simp [cmpOr] at ha4
        subst ha4
        cases b4 with
        | nil =>
          simp [cmpOr] at hb4
          exact Bool.noConfusion
            ((missing_field_invalid _ (Or.inl hb4)).symm.trans h)
        | cons b4c b4s =>
          simp [cmpOr] at hb4
          subst hb4
          cases a3 with
          | nil =>
            simp [cmpOr] at ha3
            exact Bool.noConfusion
              ((missing_field_invalid _ (Or.inr (Or.inr (Or.inl ha3)))).symm.trans h)
          | cons mc ms =>
            simp [cmpOr] at ha3
            subst ha3
            cases b3 with
            | nil =>
              simp [cmpOr] at hb3
              rw [hb3] at hs3eq
              have hm : '/' ∈ MissingPart := by
                rw [hs3eq]
                simp
              exact absurd hm (by decide)
            | cons b3c b3s =>
              simp [cmpOr] at hb3
              subst hb3
              cases pr2 with
              | false =>
                obtain ⟨hs2, htg, -⟩ := cutPromised_not_ok s1 ':' s2 tg h2
                subst hs2
                subst htg
                simp [Name.String, h, hs2eq, hs3eq, List.append_assoc]
              | true =>
                obtain ⟨b2, a2, hs1eq, -, hb2, ha2⟩ := cutPromised_ok s1 ':' s2 tg h2
                cases a2 with
                | nil =>
                  simp [cmpOr] at ha2
                  exact Bool.noConfusion
                    ((missing_field_invalid _
                      (Or.inr (Or.inr (Or.inr (Or.inl ha2))))).symm.trans h)
                | cons tc ts =>
                  simp [cmpOr] at ha2
                  subst ha2
                  cases b2 with
                  | nil =>
                    simp [cmpOr] at hb2
                    rw [hb2] at hs2eq
                    have hm : '/' ∈ MissingPart := by
                      rw [hs2eq]
                      simp
                    exact absurd hm (by decide)
                  | cons bc bs =>
                    simp [cmpOr] at hb2
                    subst hb2
                    simp [Name.String, h, hs1eq, hs2eq, hs3eq, List.append_assoc]

/-- Round-trip core shared by the formatting claims: if parsing `s` yields a
valid name, formatting that name returns `s` unchanged. -/
theorem parse_String_eq (s : List Char)
    (h : (ParseNameNoDefaults s).IsValid = true) :
    (ParseNameNoDefaults s).String = s := by
  rcases h1 : cutLast s '@' with ⟨s1, rd, pr⟩
  rcases h2 : cutPromised s1 ':' with ⟨s2, tg, pr2⟩
  rcases h3 : cutPromised s2 '/' with ⟨s3, md, pr3⟩
  rcases h4 : cutPromised s3 '/' with ⟨s4, ns, pr4⟩
  cases pr with
  | false =>
    obtain ⟨hs1, hrd, -⟩ := cutLast_not_ok s '@' s1 rd h1
    subst hrd
    rw [hs1] at h1 h2
    have hpn : ParseNameNoDefaults s =
        (if pr3 = false then { model := s3, tag := tg, rawDigest := ([] : List Char) }
          else if pr4 = false then
            { namespace_ := s4, model := md, tag := tg, rawDigest := ([] : List Char) }
          else { host := s4, namespace_ := ns, model := md, tag := tg,
                 rawDigest := ([] : List Char) }) := by
      simp [ParseNameNoDefaults, h1, h2, h3, h4]
    rw [hpn] at h ⊢
    have hts := parse_tail_String s s2 s3 s4 tg md ns [] pr2 pr3 pr4 h2 h3 h4 _ rfl h
    simpa using hts
  | true =>
    have hs : s = s1 ++ '@' :: rd := cutLast_ok s '@' s1 rd h1
    cases rd with
    | nil =>
      have hraw : (ParseNameNoDefaults s).rawDigest = MissingPart := by
        simp [ParseNameNoDefaults, h1, h2, h3, h4, apply_ite Name.rawDigest]
      exact Bool.noConfusion
        ((missing_field_invalid _ (Or.inr (Or.inr (Or.inr (Or.inr hraw))))).symm.trans h)
    | cons dc rds =>
      have hpn : ParseNameNoDefaults s =
          (if pr3 = false then { model := s3, tag := tg, rawDigest := dc :: rds }
            else if pr4 = false then
              { namespace_ := s4, model := md, tag := tg, rawDigest := dc :: rds }
            else { host := s4, namespace_ := ns, model := md, tag := tg,
                   rawDigest := dc :: rds }) := by
        simp [ParseNameNoDefaults, h1, h2, h3, h4]
      rw [hpn] at h ⊢
      have hts := parse_tail_String s1 s2 s3 s4 tg md ns (dc :: rds) pr2 pr3 pr4 h2 h3 h4 _
        rfl h
      rw [hs]
      simpa using hts

/-- C1: for every string `s` such that `ParseNameNoDefaults(s).IsValid()` is
true, `ParseNameNoDefaults(s).String()` equals `s` — formatting the parsed
name reproduces the original string exactly on the valid-parsing subset. -/
theorem parseNameNoDefaults_string_roundtrip (s : List Char)
    (h : (ParseNameNoDefaults s).IsValid = true) :
    (ParseNameNoDefaults s).String = s :=
  parse_String_eq s h

/-- Witness for the C1 theorem at the concrete input `"mm"`. -/
theorem parseNameNoDefaults_string_roundtrip_witness :
    (ParseNameNoDefaults ['m','m']).IsValid = true ∧
      (ParseNameNoDefaults ['m','m']).String = ['m','m'] :=
  ⟨by decide, parseNameNoDefaults_string_roundtrip ['m','m'] (by decide)⟩

/-- C2 counterexample: the valid name with host `"hh"`, model `"mm"` and no
namespace formats to `"hh/mm"`, which parses back with namespace `"hh"` and
empty host — so parse∘format is not the identity on all valid names. -/
theorem parse_format_counterexample :
    ({ host := ['h','h'], model := ['m','m'] } : Name).IsValid = true ∧
      ParseNameNoDefaults (({ host := ['h','h'], model := ['m','m'] } : Name).String) ≠
        { host := ['h','h'], model := ['m','m'] } := by
  decide

/-- C2 (amended): for every name produced by the parser, i.e. every
`n = ParseNameNoDefaults s` with `n.IsValid()`, parsing `n.String()` returns
`n` itself, field for field. -/
theorem parse_format_parse_roundtrip (s : List Char)
    (h : (ParseNameNoDefaults s).IsValid = true) :
    ParseNameNoDefaults ((ParseNameNoDefaults s).String) = ParseNameNoDefaults s := by
  rw [parse_String_eq s h]

/-- Witness for the amended C2 theorem at the concrete input `"mm"`. -/
theorem parse_format_parse_roundtrip_witness :
    (ParseNameNoDefaults ['m','m']).IsValid = true ∧
      ParseNameNoDefaults ((ParseNameNoDefaults ['m','m']).String) =
        ParseNameNoDefaults ['m','m'] :=
  ⟨by decide, parse_format_parse_roundtrip ['m','m'] (by decide)⟩

/-- C4 counterexample: with empty namespace and model `"mm"`,
`IsValidShort` returns false but the corresponding name is valid. -/
theorem isValidShort_counterexample :
    IsValidShort [] ['m','m'] = false ∧
      ({ namespace_ := [], model := ['m','m'] } : Name).IsValid = true := by
  decide

/-- C4 (amended): for every non-empty namespace `ns` and every model `m`,
`IsValidShort ns m` agrees with building the name with only those two fields
and asking `IsValid`; the two sides differ only when `ns` is empty and `m`
is a valid model part. -/
theorem isValidShort_eq_isValid (ns m : List Char) (hns : ns ≠ []) :
    IsValidShort ns m = ({ namespace_ := ns, model := m } : Name).IsValid := by
  cases ns with
  | nil => exact absurd rfl hns
  | cons nc nrest =>
    cases m with
    | nil => simp [IsValidShort, Name.IsValid, isValidPart, isValidLen]
    | cons mc mrest => simp [IsValidShort, Name.IsValid]

/-- Witness for the amended C4 theorem at `ns = "nn"`, `m = "mm"`. -/
theorem isValidShort_eq_isValid_witness :
    IsValidShort ['n','n'] ['m','m'] =
      ({ namespace_ := ['n','n'], model := ['m','m'] } : Name).IsValid :=
  isValidShort_eq_isValid ['n','n'] ['m','m'] (by decide)

/-- A valid part is never the literal `".."` and never longer than 350. -/
theorem isValidPart_bounds (k : partKind) (s : List Char)
    (h : isValidPart k s = true) : s ≠ ['.', '.'] ∧ s.length ≤ 350 := by
  constructor
  · intro he
    rw [he] at h
    revert h
    cases k <;> decide
  · have hlen : isValidLen k s = true := by
      simp only [isValidPart, Bool.and_eq_true] at h
      exact h.1
    cases k <;> simp only [isValidLen] at hlen <;> rw [decide_eq_true_eq] at hlen <;> omega

/-- C5 counterexample: the name with model `"a..b"` is valid although the
model field contains the two-character substring `".."`. -/
theorem dotdot_infix_counterexample :
    ({ model := ['a','.','.','b'] } : Name).IsValid = true ∧
      List.IsInfix ['.','.'] ({ model := ['a','.','.','b'] } : Name).model :=
  ⟨by decide, ⟨['a'], ['b'], by decide⟩⟩

/-- C5 (amended): for every valid name, no field is the exact string `".."`
and no field exceeds 350 characters (fields may still contain `".."` as a
proper substring, as the counterexample shows). -/
theorem valid_name_field_bounds (n : Name) (h : n.IsValid = true) :
    (n.host ≠ ['.','.'] ∧ n.host.length ≤ 350) ∧
    (n.namespace_ ≠ ['.','.'] ∧ n.namespace_.length ≤ 350) ∧
    (n.model ≠ ['.','.'] ∧ n.model.length ≤ 350) ∧
    (n.tag ≠ ['.','.'] ∧ n.tag.length ≤ 350) ∧
    (n.rawDigest ≠ ['.','.'] ∧ n.rawDigest.length ≤ 350) := by
  obtain ⟨f1, f2, f3, f4, f5, -⟩ := isValid_requires n h
  refine ⟨?_, ?_, ?_, ?_, ?_⟩
  · rcases f1 with e | e
    · rw [e]; exact ⟨by decide, by decide⟩
    · exact isValidPart_bounds _ _ e
  · rcases f2 with e | e
    · rw [e]; exact ⟨by decide, by decide⟩
    · exact isValidPart_bounds _ _ e
  · rcases f3 with e | e
    · rw [e]; exact ⟨by decide, by decide⟩
    · exact isValidPart_bounds _ _ e
  · rcases f4 with e | e
    · rw [e]; exact ⟨by decide, by decide⟩
    · exact isValidPart_bounds _ _ e
  · rcases f5 with e | e
    · rw [e]; exact ⟨by decide, by decide⟩
    · exact isValidPart_bounds _ _ e

/-- Witness for the amended C5 theorem at the parsed name of `"mm"`. -/
theorem valid_name_field_bounds_witness :
    (ParseNameNoDefaults ['m','m']).model ≠ ['.','.'] :=
  (valid_name_field_bounds (ParseNameNoDefaults ['m','m']) (by decide)).2.2.1.1

/-- C7: the sentinel `MissingPart` (`"!MISSING!"`) fails part validation for
every part kind, and consequently every name with any field equal to
`MissingPart` is invalid. -/
theorem missingPart_always_invalid :
    (∀ k : partKind, isValidPart k MissingPart = false) ∧
    (∀ n : Name, (n.host = MissingPart ∨ n.namespace_ = MissingPart ∨
        n.model = MissingPart ∨ n.tag = MissingPart ∨ n.rawDigest = MissingPart) →
      n.IsValid = false) :=
  ⟨isValidPart_MissingPart, missing_field_invalid⟩

/-- Witness for the C7 theorem: a name whose model is the sentinel. -/
theorem missingPart_always_invalid_witness :
    ({ model := MissingPart } : Name).IsValid = false :=
  missingPart_always_invalid.2 { model := MissingPart } (Or.inr (Or.inr (Or.inl rfl)))

/-- C8: `Name.String` returns the empty string exactly on invalid names — an
invalid name never renders to a non-empty string, and a valid name always
renders to a non-empty string. -/
theorem string_empty_iff_invalid (n : Name) :
    n.String = [] ↔ n.IsValid = false := by
  constructor
  · intro he
    cases hv : n.IsValid with
    | false => rfl
    | true =>
      exfalso
      obtain ⟨-, -, -, -, -, hme⟩ := isValid_requires n hv
      simp only [Name.String, hv, eq_self_iff_true, if_true] at he
      obtain ⟨-, he2⟩ := List.append_eq_nil.mp he
      obtain ⟨-, he3⟩ := List.append_eq_nil.mp he2
      obtain ⟨hmodel, he4⟩ := List.append_eq_nil.mp he3
      obtain ⟨-, he5⟩ := List.append_eq_nil.mp he4
      rcases hrd : n.rawDigest with _ | ⟨c, t⟩
      · exact hme ⟨hmodel, hrd⟩
      · rw [hrd] at he5
        simp at he5
  · intro hv
    simp [Name.String, hv]

/-- Witness for the C8 theorem: the all-empty name renders to `""` and is
invalid. -/
theorem string_empty_iff_invalid_witness :
    ({} : Name).String = [] :=
  (string_empty_iff_invalid {}).mpr (by decide)

/-- C9: the names with model `"ab"`, and with model `"a"` and tag `"b"`, are
not field-wise case-insensitively equal, yet `MapHash` collides on them and
`Equal` reports true, because the five fields are lower-cased and
concatenated in order with no separator before hashing.  `H` ranges over all
possible seeded `maphash` functions. -/
theorem mapHash_not_injective_on_fields :
    ∀ H : List Char → Nat,
      Name.MapHash H { model := ['a','b'] } =
          Name.MapHash H { model := ['a'], tag := ['b'] } ∧
        Name.Equal H { model := ['a','b'] } { model := ['a'], tag := ['b'] } = true ∧
        writeLower ({ model := ['a','b'] } : Name).model ≠
          writeLower ({ model := ['a'], tag := ['b'] } : Name).model := by
  intro H
  have hb : Name.hashBytes { model := ['a','b'] } =
      Name.hashBytes { model := ['a'], tag := ['b'] } := by decide
  refine ⟨congrArg H hb, ?_, by decide⟩
  simp [Name.Equal, Name.MapHash, hb]

/-- Witness for the C9 theorem at the constant-zero hash function. -/
theorem mapHash_not_injective_on_fields_witness :
    Name.Equal (fun _ => 0) { model := ['a','b'] } { model := ['a'], tag := ['b'] } = true :=
  (mapHash_not_injective_on_fields (fun _ => 0)).2.1

/-- C3 (exhibit of the failing input): on `"sha256:"` followed by 66 zero
hex characters, the `hex.Decode` pair loop reaches its 33rd write into the
32-byte destination array, which is an out-of-bounds write — a panic in Go,
`none` in this model — so `ParseDigest` does not return any Digest. -/
theorem parseDigest_panics_on_long_hash :
    ParseDigest (['s','h','a','2','5','6',':'] ++ List.replicate 66 '0') = none := by
  decide

/-- Characters are determined by their code points. -/
theorem char_toNat_inj {c d : Char} (h : c.toNat = d.toNat) : c = d :=
  Char.ext (UInt32.ext h)

/-- A hex digit character other than `'0'` has a non-zero value. -/
theorem fromHexChar_pos (c : Char) (v : Nat) (h : fromHexChar c = some v)
    (hc : c ≠ '0') : v ≠ 0 := by
  intro hv
  subst hv
  unfold fromHexChar at h
  split at h
  · rename_i h1
    have h0 := Option.some.inj h
    have h48 : c.toNat = 48 := by omega
    exact hc (char_toNat_inj (by rw [h48]; rfl))
  · split at h
    · rename_i h1 h2
      have h0 := Option.some.inj h
      omega
    · split at h
      · rename_i h1 h2 h3
        have h0 := Option.some.inj h
        omega
      · exact Option.noConfusion h

/-- The decoded pair list has half the input length. -/
theorem hexPairs_length (l : List Char) : (hexPairs l).length = l.length / 2 := by
  induction l using hexPairs.induct with
  | case1 => simp [hexPairs]
  | case2 x => simp [hexPairs]
  | case3 p q rest ih =>
    simp only [hexPairs, List.length_cons, ih]
    omega

/-- On an even-length all-hex input that fits into the destination, the
`hex.Decode` pair loop runs to completion with no error and no panic,
returning exactly the decoded pairs. -/
theorem hexDecodeCore_success (l : List Char) :
    ∀ dstLen i : Nat, (∀ c ∈ l, (fromHexChar c).isSome = true) →
      l.length % 2 = 0 → i + l.length / 2 ≤ dstLen →
      hexDecodeCore dstLen i l = some (hexPairs l, false) := by
  induction l using hexPairs.induct with
  | case1 => intro dstLen i hhex heven hfit; rfl
  | case2 x => intro dstLen i hhex heven hfit; simp at heven
  | case3 p q rest ih =>
    intro dstLen i hhex heven hfit
    obtain ⟨a, ha⟩ := Option.isSome_iff_exists.mp (hhex p (by simp))
    obtain ⟨b, hb⟩ := Option.isSome_iff_exists.mp (hhex q (by simp))
    have hlen2 : rest.length % 2 = 0 := by
      simp only [List.length_cons] at heven
      omega
    have hfit2 : (i + 1) + rest.length / 2 ≤ dstLen := by
      simp only [List.length_cons] at hfit
      omega
    have hi : i < dstLen := by
      simp only [List.length_cons] at hfit
      omega
    have hrest := ih dstLen (i + 1) (fun c hcm => hhex c (by simp [hcm])) hlen2 hfit2
    simp [hexDecodeCore, ha, hb, hi, hrest, hexPairs]

/-- If some character of an even-length hex string is not `'0'`, the decoded
byte list contains a non-zero byte. -/
theorem hexPairs_ne_zero (l : List Char) :
    (∀ c ∈ l, (fromHexChar c).isSome = true) → l.length % 2 = 0 →
    (∃ c ∈ l, c ≠ '0') → ∃ b ∈ hexPairs l, b ≠ 0 := by
  induction l using hexPairs.induct with
  | case1 => intro _ _ h; simp at h
  | case2 x => intro _ heven _; simp at heven
  | case3 p q rest ih =>
    intro hhex heven hw
    obtain ⟨a, ha⟩ := Option.isSome_iff_exists.mp (hhex p (by simp))
    obtain ⟨b, hb⟩ := Option.isSome_iff_exists.mp (hhex q (by simp))
    obtain ⟨c, hcm, hc0⟩ := hw
    simp only [List.mem_cons] at hcm
    rcases hcm with rfl | hcm2
    · have hane := fromHexChar_pos c a ha hc0
      refine ⟨16 * (fromHexChar c).getD 0 + (fromHexChar q).getD 0, by simp [hexPairs], ?_⟩
      rw [ha, hb]
      simp
      omega
    · rcases hcm2 with rfl | hcm3
      · have hbne := fromHexChar_pos c b hb hc0
        refine ⟨16 * (fromHexChar p).getD 0 + (fromHexChar c).getD 0, by simp [hexPairs], ?_⟩
        rw [ha, hb]
        simp
        omega
      · have hlen2 : rest.length % 2 = 0 := by
          simp only [List.length_cons] at heven
          omega
        obtain ⟨b', hbm, hb'⟩ :=
          ih (fun c hcm => hhex c (by simp [hcm])) hlen2 ⟨c, hcm3, hc0⟩
        exact ⟨b', by simp [hexPairs, hbm], hb'⟩

/-- Every Digest that `ParseDigest` actually returns is either the zero
Digest or carries the recognized sha256 type. -/
theorem parseDigest_cases (s : List Char) (d : Digest) (h : ParseDigest s = some d) :
    d = zeroDigest ∨ d.typ = DigestTypeSHA256 := by
  simp only [ParseDigest] at h
  repeat' split at h
  all_goals
    first
      | exact Option.noConfusion h
      | exact Or.inl (Option.some.inj h).symm
      | exact Or.inr (by rw [← Option.some.inj h])

/-- C6 counterexample: the Go-representable Digest with unrecognized type 0
and hash `[32]byte{1}` is invalid, yet its `String()` is
`"unknown-0100…0"`, not `"unknown-"` followed by 64 zero hex characters. -/
theorem digest_string_unknown_counterexample :
    Digest.IsValid { typ := 0, hash := oneHash } = false ∧
      Digest.String { typ := 0, hash := oneHash } ≠
        ['u','n','k','n','o','w','n','-'] ++ List.replicate 64 '0' := by
  decide

/-- C6 (amended): `Digest.String` is total, and on invalid digests it prints
the type name, `'-'`, and the hex encoding of the hash; when the type is the
recognized sha256 family the hash of an invalid digest is necessarily
all-zero, so the output is `"sha256-"` + 64 zero hex characters, and every
invalid digest actually produced by `ParseDigest` is the zero digest, whose
output is `"unknown-"` + 64 zero hex characters. -/
theorem digest_string_invalid_cases :
    (∀ d : Digest, d.IsValid = false → d.typ = DigestTypeSHA256 →
      d.String = ['s','h','a','2','5','6','-'] ++ List.replicate 64 '0') ∧
    (∀ (s : List Char) (d : Digest), ParseDigest s = some d → d.IsValid = false →
      d.typ ≠ DigestTypeSHA256 →
      d.String = ['u','n','k','n','o','w','n','-'] ++ List.replicate 64 '0') := by
  constructor
  · intro d hv ht
    obtain ⟨t, hsh⟩ := d
    simp only at ht
    subst ht
    have hz : hsh = zeroHash := by
      simp [Digest.IsValid] at hv
      exact hv
    subst hz
    decide
  · intro s d hp hv ht
    rcases parseDigest_cases s d hp with hz | hty
    · subst hz
      decide
    · exact absurd hty ht

/-- Witness for the amended C6 theorem: `ParseDigest ""` yields the zero
digest, which is invalid, has unrecognized type, and prints as
`"unknown-"` + 64 zeros. -/
theorem digest_string_invalid_cases_witness :
    Digest.String zeroDigest = ['u','n','k','n','o','w','n','-'] ++ List.replicate 64 '0' :=
  digest_string_invalid_cases.2 [] zeroDigest (by decide) (by decide) (by decide)

/-- Hex digit characters are not `'@'` and not `':'`. -/
theorem hexChar_ne_sep (c : Char) (h : (fromHexChar c).isSome = true) :
    c ≠ '@' ∧ c ≠ ':' := by
  constructor
  · intro he
    subst he
    exact absurd h (by decide)
  · intro he
    subst he
    exact absurd h (by decide)

/-- C10: for every 64-character hex string `h` that is not all zeros,
parsing `"model@sha256:" ++ h` yields a name whose `Digest()` is a valid
digest while the name itself is invalid, because `':'` is rejected by the
part validator in every kind except host, so a colon-form digest stored in
`rawDigest` invalidates the whole name. -/
theorem colon_digest_valid_name_invalid (hx : List Char)
    (hlen : hx.length = 64)
    (hhex : ∀ c ∈ hx, (fromHexChar c).isSome = true)
    (hnz : ∃ c ∈ hx, c ≠ '0') :
    (∃ d, (ParseNameNoDefaults
        (['m','o','d','e','l','@','s','h','a','2','5','6',':'] ++ hx)).Digest = some d ∧
      d.IsValid = true) ∧
    (ParseNameNoDefaults
        (['m','o','d','e','l','@','s','h','a','2','5','6',':'] ++ hx)).IsValid = false := by
  have hat : '@' ∉ (['s','h','a','2','5','6',':'] ++ hx) := by
    intro hmem
    rcases List.mem_append.mp hmem with hm | hm
    · revert hm; decide
    · exact (hexChar_ne_sep '@' (hhex '@' hm)).1 rfl
  have hcolon : ':' ∉ hx := fun hm => (hexChar_ne_sep ':' (hhex ':' hm)).2 rfl
  have hcut1 : cutLast (['m','o','d','e','l','@','s','h','a','2','5','6',':'] ++ hx) '@'
      = (['m','o','d','e','l'], ['s','h','a','2','5','6',':'] ++ hx, true) := by
    have hsplit : (['m','o','d','e','l','@','s','h','a','2','5','6',':'] ++ hx)
        = ['m','o','d','e','l'] ++ '@' :: (['s','h','a','2','5','6',':'] ++ hx) := by
      simp
    rw [hsplit]
    exact cutLast_append _ _ '@' hat
  have h2 : cutPromised ['m','o','d','e','l'] ':' = (['m','o','d','e','l'], [], false) := by
    decide
  have h3 : cutPromised ['m','o','d','e','l'] '/' = (['m','o','d','e','l'], [], false) := by
    decide
  have hname : ParseNameNoDefaults (['m','o','d','e','l','@','s','h','a','2','5','6',':'] ++ hx)
      = { model := ['m','o','d','e','l'],
          rawDigest := ['s','h','a','2','5','6',':'] ++ hx } := by
    simp only [ParseNameNoDefaults]
    rw [hcut1]
    simp only [h2, h3]
    simp only [if_true, true_and]
    rw [if_neg]
    simp
  have hcutc : cutLast (['s','h','a','2','5','6',':'] ++ hx) ':'
      = (['s','h','a','2','5','6'], hx, true) := by
    have hsplit : (['s','h','a','2','5','6',':'] ++ hx)
        = ['s','h','a','2','5','6'] ++ ':' :: hx := by
      simp
    rw [hsplit]
    exact cutLast_append _ _ ':' hcolon
  have hdecode : hexDecodeCore 32 0 hx = some (hexPairs hx, false) :=
    hexDecodeCore_success hx 32 0 hhex (by omega) (by omega)
  have hplen : (hexPairs hx).length = 32 := by
    rw [hexPairs_length, hlen]
  have hdig : ParseDigest (['s','h','a','2','5','6',':'] ++ hx)
      = some { typ := DigestTypeSHA256, hash := ⟨hexPairs hx, hplen⟩ } := by
    simp only [ParseDigest]
    rw [hcutc]
    simp
    rw [hdecode]
    simp [hplen]
  constructor
  · refine ⟨{ typ := DigestTypeSHA256, hash := ⟨hexPairs hx, hplen⟩ }, ?_, ?_⟩
    · rw [hname]
      show ParseDigest (['s','h','a','2','5','6',':'] ++ hx) = _
      exact hdig
    · simp only [Digest.IsValid]
      rw [if_neg (by simp), decide_eq_true_eq]
      intro hzz
      have hvals : hexPairs hx = List.replicate 32 0 := congrArg Subtype.val hzz
      obtain ⟨b, hbm, hb0⟩ := hexPairs_ne_zero hx hhex (by omega) hnz
      rw [hvals] at hbm
      exact hb0 (List.eq_of_mem_replicate hbm)
  · rw [hname]
    have hcons : (['s','h','a','2','5','6',':'] ++ hx)
        = 's' :: (['h','a','2','5','6',':'] ++ hx) := by
      simp
    have hpart : isValidPart .digest
        ('s' :: 'h' :: 'a' :: '2' :: '5' :: '6' :: ':' :: hx) = false := by
      cases hp : isValidPart .digest ('s' :: 'h' :: 'a' :: '2' :: '5' :: '6' :: ':' :: hx) with
      | false => rfl
      | true =>
        exfalso
        simp only [isValidPart, Bool.and_eq_true] at hp
        obtain ⟨-, -, hallT⟩ := hp
        have hcv := (List.all_eq_true.mp hallT) ':' (by simp)
        revert hcv
        decide
    have hm : isValidPart .model ['m','o','d','e','l'] = true := by decide
    simp only [Name.IsValid]
    rw [hcons]
    simp [hpart, hm]

/-- Witness for the C10 theorem at the hex string of 63 `'0'`s followed by
`'1'`. -/
theorem colon_digest_valid_name_invalid_witness :
    (∃ d, (ParseNameNoDefaults (['m','o','d','e','l','@','s','h','a','2','5','6',':'] ++
        (List.replicate 63 '0' ++ ['1']))).Digest = some d ∧ d.IsValid = true) ∧
    (ParseNameNoDefaults (['m','o','d','e','l','@','s','h','a','2','5','6',':'] ++
        (List.replicate 63 '0' ++ ['1']))).IsValid = false :=
  colon_digest_valid_name_invalid (List.replicate 63 '0' ++ ['1']) (by decide)
    (by decide) (by decide)
